/-
Verification of the extendible hash table (src/project1/src/include/hash/extendible_hash.h)
and the SQL virtual-table layer (src/project1/src/include/vtable/virtual_table.h)
of the intro_to_database repository.

The hash header declares `Bucket<K, V>` and `ExtendibleHash<K, V>` but the
repository contains no .cpp implementing those declarations, so the
operational behaviour of the table (constructor, Find, Insert, Remove and the
split/grow algorithm) is modelled from the specification (spec.md §3, §4);
the declarations, the `BUCKET_MAX` constant and the member layout come from
the header itself.  `VirtualTable` is implemented inline in its header and is
embedded from that source directly.
-/
import Mathlib

set_option linter.unusedVariables false
set_option linter.unusedSectionVars false

namespace Cmudb

/-- Source: `#define BUCKET_MAX 10` (extendible_hash.h line 18): the fixed
compile-time capacity of every bucket's key/value arrays. -/
def BUCKET_MAX : Nat := 10

section KVList

variable {K V : Type} [DecidableEq K]

/-- Lookup of the value stored with a key in an association list; models a
scan of the bucket's parallel `keys`/`values` arrays returning the value of
the first matching key together with a found flag (`none` = not found). -/
def lookupKV : List (K × V) → K → Option V
  | [], _ => none
  | e :: l, k => if e.1 = k then some e.2 else lookupKV l k

/-- Membership test for a key in an association list; models the scan of the
bucket's `keys` array. -/
def containsKey : List (K × V) → K → Bool
  | [], _ => false
  | e :: l, k => decide (e.1 = k) || containsKey l k

/-- Upsert into an association list: overwrite the value of the first
occurrence of the key, or append the pair if the key is absent.  Modelled
from the spec: `Bucket::Insert` "if the key already exists, overwrites its
value (upsert) ...; if the key is new and the bucket is not full, appends". -/
def upsertKV : List (K × V) → K → V → List (K × V)
  | [], k, v => [(k, v)]
  | e :: l, k, v => if e.1 = k then (k, v) :: l else e :: upsertKV l k v

/-- Removal of the first occurrence of a key from an association list.
Modelled from the spec: `Bucket::Remove` "removes the entry if present". -/
def removeKV : List (K × V) → K → List (K × V)
  | [], _ => []
  | e :: l, k => if e.1 = k then l else e :: removeKV l k

theorem lookupKV_upsertKV (l : List (K × V)) (k : K) (v : V) :
    lookupKV (upsertKV l k v) k = some v := by
  induction l with
  | nil => simp [upsertKV, lookupKV]
  | cons e l ih =>
    by_cases h : e.1 = k
    · simp [upsertKV, lookupKV, h]
    · simp [upsertKV, lookupKV, h, ih]

theorem containsKey_eq_isSome_lookupKV (l : List (K × V)) (k : K) :
    containsKey l k = (lookupKV l k).isSome := by
  induction l with
  | nil => simp [containsKey, lookupKV]
  | cons e l ih =>
    by_cases h : e.1 = k
    · simp [containsKey, lookupKV, h]
    · simp [containsKey, lookupKV, h, ih]

theorem length_upsertKV_of_contains (l : List (K × V)) (k : K) (v : V)
    (h : containsKey l k = true) : (upsertKV l k v).length = l.length := by
  induction l with
  | nil => simp [containsKey] at h
  | cons e l ih =>
    by_cases he : e.1 = k
    · simp [upsertKV, he]
    · simp [containsKey, he] at h
      simp [upsertKV, he, ih h]

theorem length_upsertKV_of_not_contains (l : List (K × V)) (k : K) (v : V)
    (h : containsKey l k = false) : (upsertKV l k v).length = l.length + 1 := by
  induction l with
  | nil => simp [upsertKV]
  | cons e l ih =>
    simp only [containsKey, Bool.or_eq_false_iff, decide_eq_false_iff_not] at h
    rw [upsertKV]
    simp [h.1, ih h.2]

theorem length_removeKV_le (l : List (K × V)) (k : K) :
    (removeKV l k).length ≤ l.length := by
  induction l with
  | nil => simp [removeKV]
  | cons e l ih =>
    by_cases he : e.1 = k
    · simp [removeKV, he]
    · simp only [removeKV, he, if_false, List.length_cons]
      omega

end KVList

/-- Source: `class Bucket` (extendible_hash.h lines 22-37): a fixed-capacity
container of key/value pairs with a local depth tag.  The source stores the
pairs in two parallel arrays of length `BUCKET_MAX` with a fill counter
`index` (line 34 declares the value array as `V keys[BUCKET_MAX]`, an obvious
slip for `V values[BUCKET_MAX]`); `entries` models the first `index` filled
pairs and `depth` models the member `int depth`. -/
structure Bucket (K V : Type) where
  entries : List (K × V)
  depth : Nat
deriving DecidableEq

/-- Source: `ExtendibleHash` members (extendible_hash.h lines 55-60):
`std::vector<Bucket&> buckets` (the directory of aliased bucket references),
`int depth` (the global depth) and `int b_num` (the bucket count).  Aliased
references are modelled, as spec.md §9 suggests, by an arena of buckets
indexed by stable identifiers, with the directory `buckets` holding arena
indices; `b_num` is then the arena length (`GetNumBuckets`). -/
structure ExtendibleHash (K V : Type) where
  arena : List (Bucket K V)
  buckets : List Nat
  depth : Nat
deriving DecidableEq

section Ops

variable {K V : Type} [DecidableEq K]

/-- Modelled from the spec: a freshly constructed bucket is empty (spec.md §3
"a single empty bucket at depth 0"); the missing `Bucket::Bucket()` body is
not in src/. -/
def emptyBucket : Bucket K V := ⟨[], 0⟩

/-- Modelled from the spec: `IsFull()` is "true iff entry count equals
capacity" (spec.md §4.1); the implementation is missing from src/. -/
def Bucket.IsFull (b : Bucket K V) : Bool := b.entries.length == BUCKET_MAX

/-- Source signature `bool Bucket::Find(const K &key)` (extendible_hash.h
line 27) — the declared return carries only a found flag.  Behaviour modelled
from the spec: an unmatched key yields not-found (spec.md §4.1); the
implementation is missing from src/. -/
def Bucket.Find (b : Bucket K V) (k : K) : Bool := containsKey b.entries k

/-- Modelled from the spec: `Bucket::Remove` "removes the entry if present;
returns whether a removal occurred" (spec.md §4.1); the implementation is
missing from src/. -/
def Bucket.Remove (b : Bucket K V) (k : K) : Bool × Bucket K V :=
  (b.Find k, ⟨removeKV b.entries k, b.depth⟩)

/-- Modelled from the spec: `Bucket::Insert` upserts an existing key and
appends a new one (spec.md §4.1); the implementation is missing from src/. -/
def Bucket.Insert (b : Bucket K V) (k : K) (v : V) : Bucket K V :=
  ⟨upsertKV b.entries k v, b.depth⟩

/-- Source: `int Bucket::GetLocalDepth()` (extendible_hash.h line 30). -/
def Bucket.GetLocalDepth (b : Bucket K V) : Nat := b.depth

/-- Directory slot read: the arena index stored in slot `i` (default 0 for an
out-of-range slot, which well-formedness rules out). -/
def ExtendibleHash.dirGet (t : ExtendibleHash K V) (i : Nat) : Nat :=
  t.buckets.getD i 0

/-- Arena read: the bucket with identifier `j`. -/
def ExtendibleHash.arGet (t : ExtendibleHash K V) (j : Nat) : Bucket K V :=
  t.arena.getD j emptyBucket

/-- Source: `int GetGlobalDepth() const` (extendible_hash.h line 47). -/
def ExtendibleHash.GetGlobalDepth (t : ExtendibleHash K V) : Nat := t.depth

/-- Source: `int GetLocalDepth(int bucket_id) const` (extendible_hash.h
line 48): the depth tag of the bucket with the given stable identifier. -/
def ExtendibleHash.GetLocalDepth (t : ExtendibleHash K V) (j : Nat) : Nat :=
  (t.arGet j).depth

/-- Source: `int GetNumBuckets() const` (extendible_hash.h line 49), backed
by the member `b_num`; in the arena model this is the arena length. -/
def ExtendibleHash.GetNumBuckets (t : ExtendibleHash K V) : Nat :=
  t.arena.length

/-- Modelled from the spec: `DirectoryIndex(hash) = hash & (2^global_depth -
1)` (spec.md §4.2), written as a remainder; the implementation is missing
from src/.  `hashKey` stands for the member `size_t HashKey(const K &)`,
"any well-distributed deterministic hash". -/
def dirIndex (hashKey : K → Nat) (t : ExtendibleHash K V) (k : K) : Nat :=
  hashKey k % 2 ^ t.depth

/-- Arena identifier of the bucket the key's directory slot references. -/
def bucketId (hashKey : K → Nat) (t : ExtendibleHash K V) (k : K) : Nat :=
  t.dirGet (dirIndex hashKey t k)

/-- Bucket the key's directory slot references. -/
def targetBucket (hashKey : K → Nat) (t : ExtendibleHash K V) (k : K) :
    Bucket K V :=
  t.arGet (bucketId hashKey t k)

/-- Modelled from the spec: the constructor `ExtendibleHash(size_t size)`
(extendible_hash.h line 43) creates the table "with directory length 1 and a
single empty bucket at depth 0" (spec.md §3); its body is missing from src/.
The `size` argument does not enter the initial state: per-bucket capacity is
the compile-time `BUCKET_MAX` (extendible_hash.h lines 18, 33-34). -/
def newTable (size : Nat) : ExtendibleHash K V :=
  ⟨[emptyBucket], [0], 0⟩

/-- Modelled from the spec: table `Find` resolves the slot and delegates to
the bucket (spec.md §4.2); the out-parameter `V &value` plus `bool` result of
the source signature (extendible_hash.h line 51) is modelled as `Option V`.
The implementation is missing from src/. -/
def ExtendibleHash.Find (hashKey : K → Nat) (t : ExtendibleHash K V) (k : K) :
    Option V :=
  lookupKV (targetBucket hashKey t k).entries k

/-- Modelled from the spec: table `Remove` resolves the slot and delegates to
bucket `Remove`, never merging or shrinking (spec.md §4.2); the
implementation of the declaration at extendible_hash.h line 52 is missing
from src/. -/
def ExtendibleHash.Remove (hashKey : K → Nat) (t : ExtendibleHash K V)
    (k : K) : Bool × ExtendibleHash K V :=
  let res := (targetBucket hashKey t k).Remove k
  (res.1, { t with arena := t.arena.set (bucketId hashKey t k) res.2 })

/-- Non-splitting insert step: store the upserted/extended target bucket back
into the arena (spec.md §4.2 steps 1-3). -/
def placeInsert (hashKey : K → Nat) (t : ExtendibleHash K V) (k : K) (v : V) :
    ExtendibleHash K V :=
  { t with
    arena := t.arena.set (bucketId hashKey t k)
        ((targetBucket hashKey t k).Insert k v) }

/-- Modelled from the spec: directory doubling (spec.md §4.2 step 4b): global
depth grows by one and every slot `i` is duplicated at `i + 2^old_depth`,
initially sharing slot `i`'s bucket. -/
def doubleDir (t : ExtendibleHash K V) : ExtendibleHash K V :=
  { t with buckets := t.buckets ++ t.buckets, depth := t.depth + 1 }

/-- Modelled from the spec: bucket split (spec.md §4.2 steps 4c-4e): allocate
a sibling at local depth `d+1`, raise the original to `d+1`, redistribute the
entries on bit `d` of their hash, and repoint every slot that referenced the
original and has bit `d` of its index set.  Bit `d` of `n` is written
`n / 2^d % 2`. -/
def splitBucket (hashKey : K → Nat) (t1 : ExtendibleHash K V) (id : Nat) :
    ExtendibleHash K V :=
  let b := t1.arGet id
  let d := b.depth
  let sib := t1.arena.length
  let b0 : Bucket K V :=
    ⟨b.entries.filter (fun e => decide (hashKey e.1 / 2 ^ d % 2 = 0)), d + 1⟩
  let b1 : Bucket K V :=
    ⟨b.entries.filter (fun e => decide (hashKey e.1 / 2 ^ d % 2 = 1)), d + 1⟩
  { arena := t1.arena.set id b0 ++ [b1],
    buckets := (List.range t1.buckets.length).map
      (fun i => if t1.dirGet i = id ∧ i / 2 ^ d % 2 = 1 then sib
                else t1.dirGet i),
    depth := t1.depth }

/-- Modelled from the spec: one full split iteration (spec.md §4.2 step 4):
double the directory first when the target's local depth equals the global
depth, then split the target bucket. -/
def splitStep (hashKey : K → Nat) (t : ExtendibleHash K V) (k : K) :
    ExtendibleHash K V :=
  let id := bucketId hashKey t k
  let t1 := if (t.arGet id).depth = t.depth then doubleDir t else t
  splitBucket hashKey t1 id

/-- Modelled from the spec: the split-retry loop of `Insert` (spec.md §4.2
steps 1-4f) with explicit fuel; exhausting the fuel is the `TableFull`
condition ("bounded by the hash width; exceeding it signals a `TableFull`
condition rather than looping indefinitely"). -/
def insertAux (hashKey : K → Nat) :
    Nat → ExtendibleHash K V → K → V → Option (ExtendibleHash K V)
  | 0, _, _, _ => none
  | f + 1, t, k, v =>
    if (targetBucket hashKey t k).Find k
        || ! (targetBucket hashKey t k).IsFull then
      some (placeInsert hashKey t k v)
    else
      insertAux hashKey f (splitStep hashKey t k) k v

/-- Modelled from the spec: `ExtendibleHash::Insert` (declaration at
extendible_hash.h line 53, implementation missing from src/); `w` is the
hash-bit width bounding the split-retry loop, `none` is the fatal `TableFull`
outcome surfaced to the caller. -/
def ExtendibleHash.Insert (hashKey : K → Nat) (w : Nat)
    (t : ExtendibleHash K V) (k : K) (v : V) : Option (ExtendibleHash K V) :=
  insertAux hashKey w t k v

/-- Reachable states of one table: the constructor's output, followed by any
sequence of completed `Insert` and `Remove` calls (`Find` does not change the
state). -/
inductive Reachable (hashKey : K → Nat) : ExtendibleHash K V → Prop where
  | init (size : Nat) : Reachable hashKey (newTable size)
  | insert {t t' : ExtendibleHash K V} {f : Nat} {k : K} {v : V} :
      Reachable hashKey t → insertAux hashKey f t k v = some t' →
      Reachable hashKey t'
  | remove {t : ExtendibleHash K V} {k : K} :
      Reachable hashKey t →
      Reachable hashKey (ExtendibleHash.Remove hashKey t k).2

end Ops

section Helpers

variable {α : Type}

theorem getD_set_self (l : List α) (j : Nat) (a d : α) (h : j < l.length) :
    (l.set j a).getD j d = a := by
  rw [List.getD_eq_getElem _ _ (by simpa using h), List.getElem_set_self]

theorem getD_set_ne (l : List α) (i j : Nat) (a d : α) (h : i ≠ j) :
    (l.set i a).getD j d = l.getD j d := by
  rcases Nat.lt_or_ge j l.length with hj | hj
  · rw [List.getD_eq_getElem _ _ (by simpa using hj),
      List.getD_eq_getElem _ _ hj, List.getElem_set_ne h]
  · rw [List.getD_eq_getElem?_getD, List.getD_eq_getElem?_getD,
      List.getElem?_eq_none (by simpa using hj),
      List.getElem?_eq_none (by simpa using hj)]

theorem getD_rangeMap (n : Nat) (f : Nat → α) (i : Nat) (d : α) (h : i < n) :
    ((List.range n).map f).getD i d = f i := by
  rw [List.getD_eq_getElem _ _ (by simpa using h)]
  simp

theorem mod_pow_succ_eq (i d : Nat) :
    i % 2 ^ (d + 1) = i % 2 ^ d + 2 ^ d * (i / 2 ^ d % 2) := by
  rw [pow_succ]
  exact Nat.mod_mul

theorem add_mul_bit_char (a x b r : Nat) (hx : x < a) (hb : b < 2)
    (hr : r < a) :
    (x + a * b = r ↔ x = r ∧ b = 0) ∧
      (x + a * b = a + r ↔ x = r ∧ b = 1) := by
  rcases (by omega : b = 0 ∨ b = 1) with rfl | rfl
  · constructor <;> omega
  · constructor <;> omega

theorem mod_pow_succ_low {i d r : Nat} (hr : r < 2 ^ d) :
    i % 2 ^ (d + 1) = r ↔ i % 2 ^ d = r ∧ i / 2 ^ d % 2 = 0 := by
  rw [mod_pow_succ_eq]
  exact (add_mul_bit_char (2 ^ d) (i % 2 ^ d) (i / 2 ^ d % 2) r
    (Nat.mod_lt _ (Nat.two_pow_pos d)) (Nat.mod_lt _ (by omega)) hr).1

theorem mod_pow_succ_high {i d r : Nat} (hr : r < 2 ^ d) :
    i % 2 ^ (d + 1) = 2 ^ d + r ↔ i % 2 ^ d = r ∧ i / 2 ^ d % 2 = 1 := by
  rw [mod_pow_succ_eq]
  exact (add_mul_bit_char (2 ^ d) (i % 2 ^ d) (i / 2 ^ d % 2) r
    (Nat.mod_lt _ (Nat.two_pow_pos d)) (Nat.mod_lt _ (by omega)) hr).2

theorem card_range_filter_mod (m q r : Nat) (hr : r < m) :
    ((Finset.range (m * q)).filter (fun i => i % m = r)).card = q := by
  have hm : 0 < m := by omega
  have himg : (Finset.range (m * q)).filter (fun i => i % m = r)
      = (Finset.range q).image (fun j => m * j + r) := by
    ext i
    simp only [Finset.mem_filter, Finset.mem_range, Finset.mem_image]
    constructor
    · rintro ⟨hi, hmod⟩
      refine ⟨i / m, ?_, ?_⟩
      · rw [Nat.div_lt_iff_lt_mul hm, mul_comm q m]
        exact hi
      · rw [← hmod]
        exact Nat.div_add_mod i m
    · rintro ⟨j, hj, rfl⟩
      refine ⟨?_, ?_⟩
      · have : m * (j + 1) ≤ m * q := Nat.mul_le_mul_left m hj
        have : m * j + r < m * (j + 1) := by
          rw [Nat.mul_succ]
          omega
        omega
      · rw [Nat.mul_add_mod, Nat.mod_eq_of_lt hr]
  rw [himg, Finset.card_image_of_injective _ ?_, Finset.card_range]
  intro a b hab
  simp only at hab
  exact Nat.eq_of_mul_eq_mul_left hm (by omega)

theorem card_range_pow_filter_mod (g d r : Nat) (hd : d ≤ g)
    (hr : r < 2 ^ d) :
    ((Finset.range (2 ^ g)).filter (fun i => i % 2 ^ d = r)).card
      = 2 ^ (g - d) := by
  have hg : (2 : Nat) ^ g = 2 ^ d * 2 ^ (g - d) := by
    rw [← pow_add]
    congr 1
    omega
  rw [hg, card_range_filter_mod _ _ _ hr]

end Helpers

section Invariant

variable {K V : Type} [DecidableEq K]

/-- Well-formedness of a table state, combining the invariants of spec.md §3:
the directory length is `2^global_depth`; every slot references a live arena
bucket; every bucket's local depth is at most the global depth; the slots
referencing a bucket of local depth `d` are exactly the residue class of some
`r < 2^d` modulo `2^d`; and no bucket exceeds its capacity. -/
structure TableWF (t : ExtendibleHash K V) : Prop where
  dirLen : t.buckets.length = 2 ^ t.depth
  dirValid : ∀ i, i < t.buckets.length → t.dirGet i < t.arena.length
  depthLe : ∀ j, j < t.arena.length → (t.arGet j).depth ≤ t.depth
  slots : ∀ j, j < t.arena.length → ∃ r, r < 2 ^ (t.arGet j).depth ∧
      ∀ i, i < t.buckets.length →
        (t.dirGet i = j ↔ i % 2 ^ (t.arGet j).depth = r)
  cap : ∀ j, j < t.arena.length → (t.arGet j).entries.length ≤ BUCKET_MAX

theorem dirIndex_lt (hashKey : K → Nat) {t : ExtendibleHash K V} (k : K)
    (h : TableWF t) : dirIndex hashKey t k < t.buckets.length := by
  rw [h.dirLen]
  exact Nat.mod_lt _ (Nat.two_pow_pos _)

theorem bucketId_lt (hashKey : K → Nat) {t : ExtendibleHash K V} (k : K)
    (h : TableWF t) : bucketId hashKey t k < t.arena.length :=
  h.dirValid _ (dirIndex_lt hashKey k h)

theorem tableWF_newTable (size : Nat) :
    TableWF (newTable (K := K) (V := V) size) := by
  refine ⟨rfl, ?_, ?_, ?_, ?_⟩
  · intro i hi
    have hi0 : i = 0 := by
      change i < 1 at hi
      omega
    subst hi0
    exact Nat.zero_lt_one
  · intro j hj
    have hj0 : j = 0 := by
      change j < 1 at hj
      omega
    subst hj0
    exact Nat.le_refl 0
  · intro j hj
    have hj0 : j = 0 := by
      change j < 1 at hj
      omega
    subst hj0
    refine ⟨0, Nat.zero_lt_one, ?_⟩
    intro i hi
    have hi0 : i = 0 := by
      change i < 1 at hi
      omega
    subst hi0
    exact ⟨fun _ => rfl, fun _ => rfl⟩
  · intro j hj
    have hj0 : j = 0 := by
      change j < 1 at hj
      omega
    subst hj0
    exact Nat.zero_le _

theorem tableWF_setBucket {t : ExtendibleHash K V} {id : Nat} {b : Bucket K V}
    (h : TableWF t) (hid : id < t.arena.length)
    (hdep : b.depth = (t.arGet id).depth)
    (hcap : b.entries.length ≤ BUCKET_MAX) :
    TableWF { t with arena := t.arena.set id b } := by
  have harGet : ∀ j,
      ({ t with arena := t.arena.set id b } : ExtendibleHash K V).arGet j
        = if j = id then b else t.arGet j := by
    intro j
    by_cases hj : j = id
    · subst hj
      simp only [ExtendibleHash.arGet, if_pos rfl]
      exact getD_set_self _ _ _ _ hid
    · simp only [ExtendibleHash.arGet, if_neg hj]
      exact getD_set_ne _ _ _ _ _ (fun hh => hj hh.symm)
  have hdep' : ∀ j,
      (({ t with arena := t.arena.set id b } : ExtendibleHash K V).arGet
        j).depth = (t.arGet j).depth := by
    intro j
    rw [harGet j]
    by_cases hj : j = id
    · subst hj
      rw [if_pos rfl, hdep]
    · rw [if_neg hj]
  have hlen :
      ({ t with arena := t.arena.set id b } : ExtendibleHash K V).arena.length
        = t.arena.length := by
    simp
  refine ⟨h.dirLen, ?_, ?_, ?_, ?_⟩
  · intro i hi
    rw [hlen]
    exact h.dirValid i hi
  · intro j hj
    rw [hdep']
    rw [hlen] at hj
    exact h.depthLe j hj
  · intro j hj
    rw [hlen] at hj
    obtain ⟨r, hr, hchar⟩ := h.slots j hj
    refine ⟨r, ?_, ?_⟩
    · rw [hdep']
      exact hr
    · intro i hi
      rw [hdep']
      exact hchar i hi
  · intro j hj
    rw [hlen] at hj
    rw [harGet j]
    by_cases hjid : j = id
    · rw [if_pos hjid]
      exact hcap
    · rw [if_neg hjid]
      exact h.cap j hj

theorem tableWF_placeInsert (hashKey : K → Nat) {t : ExtendibleHash K V}
    (k : K) (v : V) (h : TableWF t)
    (hg : ((targetBucket hashKey t k).Find k
        || ! (targetBucket hashKey t k).IsFull) = true) :
    TableWF (placeInsert hashKey t k v) := by
  show TableWF ⟨t.arena.set (bucketId hashKey t k)
      ((targetBucket hashKey t k).Insert k v), t.buckets, t.depth⟩
  refine tableWF_setBucket h (bucketId_lt hashKey k h) rfl ?_
  show (upsertKV (targetBucket hashKey t k).entries k v).length ≤ BUCKET_MAX
  have hcap : (targetBucket hashKey t k).entries.length ≤ BUCKET_MAX :=
    h.cap _ (bucketId_lt hashKey k h)
  by_cases hc : containsKey (targetBucket hashKey t k).entries k = true
  · rw [length_upsertKV_of_contains _ _ _ hc]
    exact hcap
  · have hc' : containsKey (targetBucket hashKey t k).entries k = false := by
      revert hc
      cases containsKey (targetBucket hashKey t k).entries k <;> simp
    have hfull : (targetBucket hashKey t k).IsFull = false := by
      have hfind : (targetBucket hashKey t k).Find k = false := hc'
      rw [hfind] at hg
      revert hg
      cases (targetBucket hashKey t k).IsFull <;> simp
    have hne : (targetBucket hashKey t k).entries.length ≠ BUCKET_MAX := by
      have := hfull
      rw [Bucket.IsFull] at this
      simpa using this
    rw [length_upsertKV_of_not_contains _ _ _ hc']
    omega

theorem tableWF_remove (hashKey : K → Nat) {t : ExtendibleHash K V} (k : K)
    (h : TableWF t) : TableWF (ExtendibleHash.Remove hashKey t k).2 := by
  show TableWF ⟨t.arena.set (bucketId hashKey t k)
      ⟨removeKV (targetBucket hashKey t k).entries k,
        (targetBucket hashKey t k).depth⟩, t.buckets, t.depth⟩
  refine tableWF_setBucket h (bucketId_lt hashKey k h) rfl ?_
  exact le_trans (length_removeKV_le _ _) (h.cap _ (bucketId_lt hashKey k h))

theorem dirGet_doubleDir {t : ExtendibleHash K V} (h : TableWF t) (i : Nat)
    (hi : i < 2 ^ (t.depth + 1)) :
    (doubleDir t).dirGet i = t.dirGet (i % 2 ^ t.depth) := by
  show (t.buckets ++ t.buckets).getD i 0 = t.buckets.getD (i % 2 ^ t.depth) 0
  rcases Nat.lt_or_ge i (2 ^ t.depth) with hlt | hge
  · rw [List.getD_append _ _ _ _ (by rw [h.dirLen]; exact hlt),
      Nat.mod_eq_of_lt hlt]
  · rw [List.getD_append_right _ _ _ _ (by rw [h.dirLen]; exact hge)]
    congr 1
    rw [h.dirLen]
    rw [pow_succ] at hi
    rw [Nat.mod_eq_sub_mod hge, Nat.mod_eq_of_lt (by omega)]

theorem tableWF_doubleDir {t : ExtendibleHash K V} (h : TableWF t) :
    TableWF (doubleDir t) := by
  have hlen : (doubleDir t).buckets.length = 2 ^ (t.depth + 1) := by
    show (t.buckets ++ t.buckets).length = 2 ^ (t.depth + 1)
    rw [List.length_append, h.dirLen, pow_succ]
    omega
  have hmodlt : ∀ i : Nat, i % 2 ^ t.depth < t.buckets.length := by
    intro i
    rw [h.dirLen]
    exact Nat.mod_lt _ (Nat.two_pow_pos _)
  refine ⟨hlen, ?_, ?_, ?_, ?_⟩
  · intro i hi
    rw [hlen] at hi
    rw [dirGet_doubleDir h i hi]
    exact h.dirValid _ (hmodlt i)
  · intro j hj
    exact le_trans (h.depthLe j hj) (Nat.le_succ _)
  · intro j hj
    obtain ⟨r, hr, hchar⟩ := h.slots j hj
    refine ⟨r, hr, ?_⟩
    intro i hi
    rw [hlen] at hi
    rw [dirGet_doubleDir h i hi, hchar _ (hmodlt i)]
    show i % 2 ^ t.depth % 2 ^ (t.arGet j).depth = r
      ↔ i % 2 ^ (t.arGet j).depth = r
    rw [Nat.mod_mod_of_dvd i (pow_dvd_pow 2 (h.depthLe j hj))]
  · intro j hj
    exact h.cap j hj

theorem bucket_entries_mk (l : List (K × V)) (d : Nat) :
    (Bucket.mk l d).entries = l := rfl

theorem bucket_depth_mk (l : List (K × V)) (d : Nat) :
    (Bucket.mk l d).depth = d := rfl

theorem splitBucket_arena_len (hashKey : K → Nat) (t1 : ExtendibleHash K V)
    (id : Nat) :
    (splitBucket hashKey t1 id).arena.length = t1.arena.length + 1 := by
  simp [splitBucket]

theorem splitBucket_buckets_len (hashKey : K → Nat) (t1 : ExtendibleHash K V)
    (id : Nat) :
    (splitBucket hashKey t1 id).buckets.length = t1.buckets.length := by
  simp [splitBucket]

theorem splitBucket_depth (hashKey : K → Nat) (t1 : ExtendibleHash K V)
    (id : Nat) : (splitBucket hashKey t1 id).depth = t1.depth := rfl

theorem splitBucket_dirGet (hashKey : K → Nat) (t1 : ExtendibleHash K V)
    (id : Nat) (i : Nat) (hi : i < t1.buckets.length) :
    (splitBucket hashKey t1 id).dirGet i
      = if t1.dirGet i = id ∧ i / 2 ^ (t1.arGet id).depth % 2 = 1
        then t1.arena.length else t1.dirGet i := by
  simp only [splitBucket, ExtendibleHash.dirGet]
  rw [getD_rangeMap _ _ _ _ hi]

theorem splitBucket_arGet_id (hashKey : K → Nat) (t1 : ExtendibleHash K V)
    (id : Nat) (hid : id < t1.arena.length) :
    (splitBucket hashKey t1 id).arGet id
      = ⟨(t1.arGet id).entries.filter
          (fun e => decide (hashKey e.1 / 2 ^ (t1.arGet id).depth % 2 = 0)),
        (t1.arGet id).depth + 1⟩ := by
  simp only [splitBucket, ExtendibleHash.arGet]
  rw [List.getD_append _ _ _ _ (by rw [List.length_set]; exact hid)]
  exact getD_set_self _ _ _ _ hid

theorem splitBucket_arGet_sib (hashKey : K → Nat) (t1 : ExtendibleHash K V)
    (id : Nat) :
    (splitBucket hashKey t1 id).arGet t1.arena.length
      = ⟨(t1.arGet id).entries.filter
          (fun e => decide (hashKey e.1 / 2 ^ (t1.arGet id).depth % 2 = 1)),
        (t1.arGet id).depth + 1⟩ := by
  simp only [splitBucket, ExtendibleHash.arGet]
  rw [List.getD_append_right _ _ _ _ (by simp)]
  simp

theorem splitBucket_arGet_other (hashKey : K → Nat) (t1 : ExtendibleHash K V)
    (id j : Nat) (hj : j < t1.arena.length) (hne : j ≠ id) :
    (splitBucket hashKey t1 id).arGet j = t1.arGet j := by
  simp only [splitBucket, ExtendibleHash.arGet]
  rw [List.getD_append _ _ _ _ (by rw [List.length_set]; exact hj)]
  exact getD_set_ne _ _ _ _ _ (fun hh => hne hh.symm)

theorem tableWF_splitBucket (hashKey : K → Nat) {t1 : ExtendibleHash K V}
    {id : Nat} (h : TableWF t1) (hid : id < t1.arena.length)
    (hd : (t1.arGet id).depth < t1.depth) :
    TableWF (splitBucket hashKey t1 id) := by
  obtain ⟨r, hr, hchar⟩ := h.slots id hid
  have hbit : ∀ i : Nat, i / 2 ^ (t1.arGet id).depth % 2 = 0
      ∨ i / 2 ^ (t1.arGet id).depth % 2 = 1 := by
    intro i
    omega
  refine ⟨?_, ?_, ?_, ?_, ?_⟩
  · rw [splitBucket_buckets_len, splitBucket_depth]
    exact h.dirLen
  · intro i hi
    rw [splitBucket_buckets_len] at hi
    rw [splitBucket_dirGet _ _ _ _ hi, splitBucket_arena_len]
    have := h.dirValid i hi
    split_ifs <;> omega
  · intro j hj
    rw [splitBucket_arena_len] at hj
    rw [splitBucket_depth]
    by_cases hjid : j = id
    · subst hjid
      rw [splitBucket_arGet_id _ _ _ hid, bucket_depth_mk]
      omega
    · by_cases hjsib : j = t1.arena.length
      · subst hjsib
        rw [splitBucket_arGet_sib, bucket_depth_mk]
        omega
      · rw [splitBucket_arGet_other _ _ _ _ (by omega) hjid]
        exact h.depthLe j (by omega)
  · intro j hj
    rw [splitBucket_arena_len] at hj
    by_cases hjid : j = id
    · subst hjid
      rw [splitBucket_arGet_id _ _ _ hid, bucket_depth_mk]
      refine ⟨r, ?_, ?_⟩
      · have hmono : (2 : Nat) ^ (t1.arGet j).depth
            ≤ 2 ^ ((t1.arGet j).depth + 1) :=
          Nat.pow_le_pow_right (by omega) (by omega)
        omega
      · intro i hi
        rw [splitBucket_buckets_len] at hi
        rw [splitBucket_dirGet _ _ _ _ hi, mod_pow_succ_low hr,
          ← hchar i hi]
        split_ifs with hcond
        · constructor
          · intro he
            exact absurd he.symm (Nat.ne_of_lt hid)
          · intro he
            obtain ⟨_, h1⟩ := hcond
            obtain ⟨_, h0⟩ := he
            omega
        · constructor
          · intro he
            refine ⟨he, ?_⟩
            rcases hbit i with h0 | h1
            · exact h0
            · exact absurd ⟨he, h1⟩ hcond
          · intro he
            exact he.1
    · by_cases hjsib : j = t1.arena.length
      · subst hjsib
        rw [splitBucket_arGet_sib, bucket_depth_mk]
        refine ⟨2 ^ (t1.arGet id).depth + r, ?_, ?_⟩
        · rw [pow_succ]
          omega
        · intro i hi
          rw [splitBucket_buckets_len] at hi
          rw [splitBucket_dirGet _ _ _ _ hi, mod_pow_succ_high hr,
            ← hchar i hi]
          split_ifs with hcond
          · exact iff_of_true rfl hcond
          · constructor
            · intro he
              exact absurd he (Nat.ne_of_lt (h.dirValid i hi))
            · intro he
              exact absurd he hcond
      · have hjn : j < t1.arena.length := by omega
        obtain ⟨rj, hrj, hcharj⟩ := h.slots j hjn
        rw [splitBucket_arGet_other _ _ _ _ hjn hjid]
        refine ⟨rj, hrj, ?_⟩
        intro i hi
        rw [splitBucket_buckets_len] at hi
        rw [splitBucket_dirGet _ _ _ _ hi, ← hcharj i hi]
        split_ifs with hcond
        · obtain ⟨hc1, hc2⟩ := hcond
          constructor
          · intro he
            exact absurd he.symm hjsib
          · intro he
            rw [hc1] at he
            exact absurd he.symm hjid
        · exact Iff.rfl
  · intro j hj
    rw [splitBucket_arena_len] at hj
    by_cases hjid : j = id
    · subst hjid
      rw [splitBucket_arGet_id _ _ _ hid, bucket_entries_mk]
      exact le_trans (List.length_filter_le _ _) (h.cap j hid)
    · by_cases hjsib : j = t1.arena.length
      · subst hjsib
        rw [splitBucket_arGet_sib, bucket_entries_mk]
        exact le_trans (List.length_filter_le _ _) (h.cap id hid)
      · rw [splitBucket_arGet_other _ _ _ _ (by omega) hjid]
        exact h.cap j (by omega)

theorem tableWF_splitStep (hashKey : K → Nat) {t : ExtendibleHash K V}
    (k : K) (h : TableWF t) : TableWF (splitStep hashKey t k) := by
  have hid : bucketId hashKey t k < t.arena.length := bucketId_lt hashKey k h
  show TableWF (splitBucket hashKey
    (if (t.arGet (bucketId hashKey t k)).depth = t.depth then doubleDir t
      else t) (bucketId hashKey t k))
  by_cases hdg : (t.arGet (bucketId hashKey t k)).depth = t.depth
  · rw [if_pos hdg]
    refine tableWF_splitBucket hashKey (tableWF_doubleDir h) hid ?_
    show (t.arGet (bucketId hashKey t k)).depth < t.depth + 1
    omega
  · rw [if_neg hdg]
    exact tableWF_splitBucket hashKey h hid
      (lt_of_le_of_ne (h.depthLe _ hid) hdg)

theorem tableWF_insertAux (hashKey : K → Nat) {f : Nat}
    {t t' : ExtendibleHash K V} {k : K} {v : V} (h : TableWF t)
    (heq : insertAux hashKey f t k v = some t') : TableWF t' := by
  induction f generalizing t with
  | zero => exact absurd heq (by simp [insertAux])
  | succ f ih =>
    rw [insertAux] at heq
    by_cases hg : ((targetBucket hashKey t k).Find k
        || ! (targetBucket hashKey t k).IsFull) = true
    · rw [if_pos hg] at heq
      obtain rfl : placeInsert hashKey t k v = t' := by
        simpa using heq
      exact tableWF_placeInsert hashKey k v h hg
    · rw [if_neg hg] at heq
      exact ih (tableWF_splitStep hashKey k h) heq

theorem tableWF_reachable (hashKey : K → Nat) {t : ExtendibleHash K V}
    (h : Reachable hashKey t) : TableWF t := by
  induction h with
  | init size => exact tableWF_newTable size
  | insert _ heq ih => exact tableWF_insertAux hashKey ih heq
  | remove _ ih => exact tableWF_remove hashKey _ ih

end Invariant

section OpLemmas

variable {K V : Type} [DecidableEq K]

theorem find_placeInsert (hashKey : K → Nat) {t : ExtendibleHash K V}
    (k : K) (v : V) (h : TableWF t) :
    ExtendibleHash.Find hashKey (placeInsert hashKey t k v) k = some v := by
  have hid : bucketId hashKey t k < t.arena.length := bucketId_lt hashKey k h
  have htarget : targetBucket hashKey (placeInsert hashKey t k v) k
      = (targetBucket hashKey t k).Insert k v := by
    show (t.arena.set (bucketId hashKey t k)
        ((targetBucket hashKey t k).Insert k v)).getD (bucketId hashKey t k)
        emptyBucket = _
    exact getD_set_self _ _ _ _ hid
  rw [ExtendibleHash.Find, htarget]
  exact lookupKV_upsertKV _ _ _

theorem insertAux_find (hashKey : K → Nat) {f : Nat}
    {t t' : ExtendibleHash K V} {k : K} {v : V} (h : TableWF t)
    (heq : insertAux hashKey f t k v = some t') :
    ExtendibleHash.Find hashKey t' k = some v := by
  induction f generalizing t with
  | zero => exact absurd heq (by simp [insertAux])
  | succ f ih =>
    rw [insertAux] at heq
    by_cases hg : ((targetBucket hashKey t k).Find k
        || ! (targetBucket hashKey t k).IsFull) = true
    · rw [if_pos hg] at heq
      obtain rfl : placeInsert hashKey t k v = t' := by simpa using heq
      exact find_placeInsert hashKey k v h
    · rw [if_neg hg] at heq
      exact ih (tableWF_splitStep hashKey k h) heq

theorem numBuckets_placeInsert (hashKey : K → Nat) (t : ExtendibleHash K V)
    (k : K) (v : V) :
    (placeInsert hashKey t k v).GetNumBuckets = t.GetNumBuckets := by
  simp [placeInsert, ExtendibleHash.GetNumBuckets]

theorem numBuckets_splitStep (hashKey : K → Nat) (t : ExtendibleHash K V)
    (k : K) :
    (splitStep hashKey t k).GetNumBuckets = t.GetNumBuckets + 1 := by
  show (splitBucket hashKey
    (if (t.arGet (bucketId hashKey t k)).depth = t.depth then doubleDir t
      else t) (bucketId hashKey t k)).GetNumBuckets = t.GetNumBuckets + 1
  by_cases hdg : (t.arGet (bucketId hashKey t k)).depth = t.depth
  · rw [if_pos hdg]
    show (splitBucket hashKey (doubleDir t) (bucketId hashKey t k)).arena.length
      = t.arena.length + 1
    rw [splitBucket_arena_len]
    rfl
  · rw [if_neg hdg]
    exact splitBucket_arena_len hashKey t _

theorem numBuckets_insertAux_mono (hashKey : K → Nat) {f : Nat}
    {t t' : ExtendibleHash K V} {k : K} {v : V}
    (heq : insertAux hashKey f t k v = some t') :
    t.GetNumBuckets ≤ t'.GetNumBuckets := by
  induction f generalizing t with
  | zero => exact absurd heq (by simp [insertAux])
  | succ f ih =>
    rw [insertAux] at heq
    by_cases hg : ((targetBucket hashKey t k).Find k
        || ! (targetBucket hashKey t k).IsFull) = true
    · rw [if_pos hg] at heq
      obtain rfl : placeInsert hashKey t k v = t' := by simpa using heq
      exact le_of_eq (numBuckets_placeInsert hashKey t k v).symm
    · rw [if_neg hg] at heq
      have h1 := ih heq
      have h2 := numBuckets_splitStep hashKey t k
      omega

theorem remove_frame (hashKey : K → Nat) (t : ExtendibleHash K V) (k : K) :
    (ExtendibleHash.Remove hashKey t k).2.depth = t.depth
    ∧ (ExtendibleHash.Remove hashKey t k).2.buckets = t.buckets
    ∧ (ExtendibleHash.Remove hashKey t k).2.GetNumBuckets
        = t.GetNumBuckets := by
  refine ⟨rfl, rfl, ?_⟩
  show (t.arena.set (bucketId hashKey t k)
    ⟨removeKV (targetBucket hashKey t k).entries k,
      (targetBucket hashKey t k).depth⟩).length = t.arena.length
  simp

theorem remove_flag (hashKey : K → Nat) (t : ExtendibleHash K V) (k : K) :
    (ExtendibleHash.Remove hashKey t k).1
      = (ExtendibleHash.Find hashKey t k).isSome := by
  show (targetBucket hashKey t k).Find k = _
  rw [Bucket.Find, containsKey_eq_isSome_lookupKV]
  rfl

theorem insertAux_none_iff (hashKey : K → Nat) (f : Nat)
    (t : ExtendibleHash K V) (k : K) (v : V) :
    insertAux hashKey f t k v = none
      ↔ ∀ j, j < f →
        ((targetBucket hashKey ((fun s => splitStep hashKey s k)^[j] t)
            k).Find k = false
          ∧ (targetBucket hashKey ((fun s => splitStep hashKey s k)^[j] t)
            k).IsFull = true) := by
  induction f generalizing t with
  | zero => simp [insertAux]
  | succ f ih =>
    rw [insertAux]
    by_cases hg : ((targetBucket hashKey t k).Find k
        || ! (targetBucket hashKey t k).IsFull) = true
    · rw [if_pos hg]
      constructor
      · intro hcontra
        exact absurd hcontra (by simp)
      · intro hall
        have h0 := hall 0 (by omega)
        rw [Function.iterate_zero_apply] at h0
        rw [h0.1, h0.2] at hg
        simp at hg
    · rw [if_neg hg]
      rw [ih (splitStep hashKey t k)]
      have hg' : (targetBucket hashKey t k).Find k = false
          ∧ (targetBucket hashKey t k).IsFull = true := by
        revert hg
        cases hFind : (targetBucket hashKey t k).Find k <;>
          cases hFull : (targetBucket hashKey t k).IsFull <;> simp
      constructor
      · intro hall j hj
        cases j with
        | zero =>
          rw [Function.iterate_zero_apply]
          exact hg'
        | succ j =>
          rw [Function.iterate_succ_apply]
          exact hall j (by omega)
      · intro hall j hj
        have hnext := hall (j + 1) (by omega)
        rw [Function.iterate_succ_apply] at hnext
        exact hnext

end OpLemmas

section VTable

/-- Record identifier (source type `RID`, a page id / slot pair packed into
an integer by `RID::Get`), modelled as a natural number. -/
abbrev RID : Type := Nat

/-- Boundary model of the table heap used by `VirtualTable`
(virtual_table.h lines 62, 72-95): a partial map from record identifiers to
tuples.  The heap implementation itself (`table_heap.h`) is not part of the
two source files; only the calls `VirtualTable` makes are modelled. -/
structure TableHeap (T : Type) where
  tuples : RID → Option T

/-- Source call `table_heap_->GetTuple(rid, deleted_tuple)` (virtual_table.h
line 95): reads the tuple currently stored at `rid` into the out-parameter
and returns a success flag; on failure the out-parameter keeps the value it
was passed in with. -/
def TableHeap.GetTuple {T : Type} (h : TableHeap T) (rid : RID) (tuple : T) :
    Bool × T :=
  match h.tuples rid with
  | some t => (true, t)
  | none => (false, tuple)

/-- Source call `table_heap_->DeleteTuple(rid)` (virtual_table.h line 89):
removes the tuple at `rid`, reporting whether one was present. -/
def TableHeap.DeleteTuple {T : Type} (h : TableHeap T) (rid : RID) :
    Bool × TableHeap T :=
  ((h.tuples rid).isSome,
    ⟨fun r => if r = rid then none else h.tuples r⟩)

/-- Boundary model of the secondary index used by `VirtualTable`: the
multiset of key tuples it currently holds, with `KT` the key-tuple type. -/
structure Index (KT : Type) where
  entries : List KT

/-- Source call `index_->DeleteEntry(key)` (virtual_table.h line 102):
removes the entries for `key` from the index. -/
def Index.DeleteEntry {KT : Type} [DecidableEq KT] (idx : Index KT)
    (key : KT) : Index KT :=
  ⟨idx.entries.filter (fun e => decide (e ≠ key))⟩

/-- Source: `class VirtualTable` members `table_heap_` and `index_`
(virtual_table.h lines 121-128); the schema pointer is absorbed into the
key-extraction function passed to `DeleteEntry` below. -/
structure VirtualTable (T KT : Type) where
  table_heap_ : TableHeap T
  index_ : Index KT

/-- Source: `VirtualTable::DeleteTuple` (virtual_table.h lines 88-90):
delegates to the heap. -/
def VirtualTable.DeleteTuple {T KT : Type} (vt : VirtualTable T KT)
    (rid : RID) : Bool × VirtualTable T KT :=
  let res := vt.table_heap_.DeleteTuple rid
  (res.1, { vt with table_heap_ := res.2 })

/-- Source: `VirtualTable::DeleteEntry` (virtual_table.h lines 93-103):
construct `Tuple deleted_tuple(rid)` (modelled by `mkTuple`), read the tuple
currently stored at `rid` out of the heap (ignoring the success flag, as the
source does), build the index key from it (`keyOf` models the
`GetKeyAttrs`/`GetValue`/key-schema loop of lines 97-101), and delete that
key's entries from the index. -/
def VirtualTable.DeleteEntry {T KT : Type} [DecidableEq KT] (keyOf : T → KT)
    (mkTuple : RID → T) (vt : VirtualTable T KT) (rid : RID) :
    VirtualTable T KT :=
  let deleted_tuple := mkTuple rid
  let res := vt.table_heap_.GetTuple rid deleted_tuple
  { vt with index_ := vt.index_.DeleteEntry (keyOf res.2) }

end VTable

section Claims

/-- C1: for every key `k` and value `v`, a completed `Insert(k, v)` on a
reachable table (one that returns instead of signalling `TableFull`)
followed by `Find(k)` yields the value `v` and a found flag of true
(`some v`). -/
theorem claim_C1_roundtrip {K V : Type} [DecidableEq K] (hashKey : K → Nat)
    (t t' : ExtendibleHash K V) (k : K) (v : V) (w : Nat)
    (hreach : Reachable hashKey t)
    (hins : ExtendibleHash.Insert hashKey w t k v = some t') :
    ExtendibleHash.Find hashKey t' k = some v :=
  insertAux_find hashKey (tableWF_reachable hashKey hreach) hins

/-- Witness for C1: inserting key 5 with value 7 into a fresh table and
finding it again. -/
theorem claim_C1_roundtrip_witness :
    ExtendibleHash.Find (fun n => n)
      (⟨[⟨[(5, 7)], 0⟩], [0], 0⟩ : ExtendibleHash Nat Nat) 5 = some 7 :=
  claim_C1_roundtrip (fun n => n) (newTable 0) _ 5 7 1 (Reachable.init 0) rfl

/-- C2: in every reachable state the directory length equals
`2^global_depth` (hence is a power of two), and the constructor produces
directory length 1 with global depth 0 regardless of its `size` argument. -/
theorem claim_C2_directory_length {K V : Type} [DecidableEq K]
    (hashKey : K → Nat) :
    (∀ t : ExtendibleHash K V, Reachable hashKey t →
      t.buckets.length = 2 ^ t.GetGlobalDepth)
    ∧ (∀ size : Nat, (newTable (K := K) (V := V) size).buckets.length = 1
        ∧ (newTable (K := K) (V := V) size).GetGlobalDepth = 0) :=
  ⟨fun _ h => (tableWF_reachable hashKey h).dirLen,
   fun _ => ⟨rfl, rfl⟩⟩

/-- Witness for C2 at the freshly constructed table. -/
theorem claim_C2_witness :
    (newTable (K := Nat) (V := Nat) 5).buckets.length
      = 2 ^ (newTable (K := Nat) (V := Nat) 5).GetGlobalDepth :=
  (claim_C2_directory_length (fun n => n)).1 (newTable 5) (Reachable.init 5)

/-- C3: in every reachable state, every live bucket `j` is referenced by
exactly `2^(global_depth - local_depth j)` directory slots, and its local
depth is at most the global depth. -/
theorem claim_C3_slot_count {K V : Type} [DecidableEq K] (hashKey : K → Nat)
    (t : ExtendibleHash K V) (hreach : Reachable hashKey t) :
    ∀ j, j < t.GetNumBuckets →
      ((Finset.range t.buckets.length).filter
          (fun i => t.dirGet i = j)).card
        = 2 ^ (t.GetGlobalDepth - t.GetLocalDepth j)
      ∧ t.GetLocalDepth j ≤ t.GetGlobalDepth := by
  intro j hj
  have h := tableWF_reachable hashKey hreach
  obtain ⟨r, hr, hchar⟩ := h.slots j hj
  refine ⟨?_, h.depthLe j hj⟩
  have hfe : (Finset.range t.buckets.length).filter (fun i => t.dirGet i = j)
      = (Finset.range t.buckets.length).filter
          (fun i => i % 2 ^ (t.arGet j).depth = r) := by
    apply Finset.filter_congr
    intro i hi
    rw [Finset.mem_range] at hi
    exact hchar i hi
  rw [hfe, h.dirLen]
  exact card_range_pow_filter_mod _ _ _ (h.depthLe j hj) hr

/-- Witness for C3 at the freshly constructed table, bucket 0. -/
theorem claim_C3_witness :
    ((Finset.range (newTable (K := Nat) (V := Nat) 0).buckets.length).filter
        (fun i => (newTable (K := Nat) (V := Nat) 0).dirGet i = 0)).card
      = 2 ^ ((newTable (K := Nat) (V := Nat) 0).GetGlobalDepth
          - (newTable (K := Nat) (V := Nat) 0).GetLocalDepth 0)
    ∧ (newTable (K := Nat) (V := Nat) 0).GetLocalDepth 0
        ≤ (newTable (K := Nat) (V := Nat) 0).GetGlobalDepth :=
  claim_C3_slot_count (fun n => n) (newTable 0) (Reachable.init 0) 0
    (by decide)

/-- C4: after a completed `Insert(k, v1)`, a second `Insert(k, v2)` always
completes (upsert, any positive fuel), `Find(k)` then yields `(v2, true)`,
and `GetNumBuckets` is unchanged by the second insert. -/
theorem claim_C4_upsert {K V : Type} [DecidableEq K] (hashKey : K → Nat)
    (t t1 : ExtendibleHash K V) (k : K) (v1 v2 : V) (f f' : Nat)
    (hreach : Reachable hashKey t)
    (h1 : insertAux hashKey f t k v1 = some t1) :
    ∃ t2, insertAux hashKey (f' + 1) t1 k v2 = some t2
      ∧ ExtendibleHash.Find hashKey t2 k = some v2
      ∧ t2.GetNumBuckets = t1.GetNumBuckets := by
  have hwf1 : TableWF t1 :=
    tableWF_insertAux hashKey (tableWF_reachable hashKey hreach) h1
  have hfind : ExtendibleHash.Find hashKey t1 k = some v1 :=
    insertAux_find hashKey (tableWF_reachable hashKey hreach) h1
  have hcontains : (targetBucket hashKey t1 k).Find k = true := by
    rw [Bucket.Find, containsKey_eq_isSome_lookupKV]
    rw [ExtendibleHash.Find] at hfind
    rw [hfind]
    rfl
  refine ⟨placeInsert hashKey t1 k v2, ?_, ?_, ?_⟩
  · rw [insertAux, if_pos (show ((targetBucket hashKey t1 k).Find k
        || ! (targetBucket hashKey t1 k).IsFull) = true by
      rw [hcontains]
      rfl)]
  · exact find_placeInsert hashKey k v2 hwf1
  · exact numBuckets_placeInsert hashKey t1 k v2

/-- Witness for C4: insert value 7 then value 9 at key 5 in a fresh table. -/
theorem claim_C4_witness :
    ∃ t2, insertAux (fun n => n) 1
        (⟨[⟨[(5, 7)], 0⟩], [0], 0⟩ : ExtendibleHash Nat Nat) 5 9 = some t2
      ∧ ExtendibleHash.Find (fun n => n) t2 5 = some 9
      ∧ t2.GetNumBuckets
          = (⟨[⟨[(5, 7)], 0⟩], [0], 0⟩ :
              ExtendibleHash Nat Nat).GetNumBuckets :=
  claim_C4_upsert (fun n => n) (newTable 0) _ 5 7 9 1 0 (Reachable.init 0)
    rfl

/-- C5: evaluation at the failing input.  The source declares
`bool Bucket::Find(const K &key)` (extendible_hash.h line 27): the returned
found flag is identical for two buckets that store different values under
the same key, so the declared interface cannot yield the associated value
that the table-level `Find(key, value&)` contract requires. -/
theorem claim_C5_find_no_value :
    Bucket.Find (⟨[(1, 10)], 0⟩ : Bucket Nat Nat) 1
      = Bucket.Find (⟨[(1, 20)], 0⟩ : Bucket Nat Nat) 1
    ∧ lookupKV (⟨[(1, 10)], 0⟩ : Bucket Nat Nat).entries 1 = some 10
    ∧ lookupKV (⟨[(1, 20)], 0⟩ : Bucket Nat Nat).entries 1 = some 20 :=
  ⟨rfl, rfl, rfl⟩

/-- C6: `Insert` with hash-bit-width fuel `w` fails (returns `none`, the
`TableFull` outcome) exactly when every one of the `w` split-retry
iterations would find its target bucket full without holding the key —
i.e. only when the split loop would exceed the width bound; and `Remove`
signals presence/absence by a boolean agreeing with `Find`, which is total
and signals absence by `none` rather than an error. -/
theorem claim_C6_failure_semantics {K V : Type} [DecidableEq K]
    (hashKey : K → Nat) :
    (∀ (w : Nat) (t : ExtendibleHash K V) (k : K) (v : V),
      ExtendibleHash.Insert hashKey w t k v = none
        ↔ ∀ j, j < w →
          ((targetBucket hashKey ((fun s => splitStep hashKey s k)^[j] t)
              k).Find k = false
            ∧ (targetBucket hashKey ((fun s => splitStep hashKey s k)^[j] t)
              k).IsFull = true))
    ∧ (∀ (t : ExtendibleHash K V) (k : K),
        (ExtendibleHash.Remove hashKey t k).1
          = (ExtendibleHash.Find hashKey t k).isSome) :=
  ⟨fun w t k v => insertAux_none_iff hashKey w t k v,
   fun t k => remove_flag hashKey t k⟩

/-- Witness for C6 at concrete inputs on a fresh table. -/
theorem claim_C6_witness :
    (ExtendibleHash.Insert (fun n => n) 1 (newTable (K := Nat) (V := Nat) 0)
        1 2 = none
      ↔ ∀ j, j < 1 →
        ((targetBucket (fun n => n)
            ((fun s => splitStep (fun n => n) s 1)^[j]
              (newTable (K := Nat) (V := Nat) 0)) 1).Find 1 = false
          ∧ (targetBucket (fun n => n)
            ((fun s => splitStep (fun n => n) s 1)^[j]
              (newTable (K := Nat) (V := Nat) 0)) 1).IsFull = true))
    ∧ (ExtendibleHash.Remove (fun n => n) (newTable (K := Nat) (V := Nat) 0)
          3).1
        = (ExtendibleHash.Find (fun n => n)
            (newTable (K := Nat) (V := Nat) 0) 3).isSome :=
  ⟨(claim_C6_failure_semantics (fun n => n)).1 1 (newTable 0) 1 2,
   (claim_C6_failure_semantics (fun n => n)).2 (newTable 0) 3⟩

/-- C7: `Remove` leaves the global depth, the directory length and the
bucket count unchanged (no merge, no directory shrink), and no completed
`Insert` ever decreases the bucket count — so no bucket is ever destroyed
over the table's lifetime. -/
theorem claim_C7_remove_frame {K V : Type} [DecidableEq K]
    (hashKey : K → Nat) :
    (∀ (t : ExtendibleHash K V) (k : K),
      (ExtendibleHash.Remove hashKey t k).2.GetGlobalDepth
          = t.GetGlobalDepth
      ∧ (ExtendibleHash.Remove hashKey t k).2.buckets.length
          = t.buckets.length
      ∧ (ExtendibleHash.Remove hashKey t k).2.GetNumBuckets
          = t.GetNumBuckets)
    ∧ (∀ (w : Nat) (t t' : ExtendibleHash K V) (k : K) (v : V),
        ExtendibleHash.Insert hashKey w t k v = some t' →
        t.GetNumBuckets ≤ t'.GetNumBuckets) := by
  constructor
  · intro t k
    obtain ⟨h1, h2, h3⟩ := remove_frame hashKey t k
    exact ⟨h1, by rw [h2], h3⟩
  · intro w t t' k v heq
    exact numBuckets_insertAux_mono hashKey heq

/-- Witness for C7: a `Remove` on a fresh table and a completed `Insert`. -/
theorem claim_C7_witness :
    ((ExtendibleHash.Remove (fun n => n) (newTable (K := Nat) (V := Nat) 0)
          2).2.GetGlobalDepth
        = (newTable (K := Nat) (V := Nat) 0).GetGlobalDepth
      ∧ (ExtendibleHash.Remove (fun n => n)
            (newTable (K := Nat) (V := Nat) 0) 2).2.buckets.length
          = (newTable (K := Nat) (V := Nat) 0).buckets.length
      ∧ (ExtendibleHash.Remove (fun n => n)
            (newTable (K := Nat) (V := Nat) 0) 2).2.GetNumBuckets
          = (newTable (K := Nat) (V := Nat) 0).GetNumBuckets)
    ∧ (newTable (K := Nat) (V := Nat) 0).GetNumBuckets
        ≤ (⟨[⟨[(5, 7)], 0⟩], [0], 0⟩ :
            ExtendibleHash Nat Nat).GetNumBuckets :=
  ⟨(claim_C7_remove_frame (fun n => n)).1 (newTable 0) 2,
   (claim_C7_remove_frame (fun n => n)).2 1 (newTable 0) _ 5 7 rfl⟩

/-- C9: the per-bucket capacity is the compile-time constant
`BUCKET_MAX = 10`: the constructor's `size` argument does not influence the
initial state at all, and in every reachable state every live bucket holds
at most `BUCKET_MAX` pairs. -/
theorem claim_C9_capacity {K V : Type} [DecidableEq K] (hashKey : K → Nat) :
    BUCKET_MAX = 10
    ∧ (∀ size1 size2 : Nat,
        newTable (K := K) (V := V) size1 = newTable (K := K) (V := V) size2)
    ∧ (∀ t : ExtendibleHash K V, Reachable hashKey t →
        ∀ j, j < t.GetNumBuckets →
          (t.arGet j).entries.length ≤ BUCKET_MAX) :=
  ⟨rfl, fun _ _ => rfl,
   fun _ h j hj => (tableWF_reachable hashKey h).cap j hj⟩

/-- Witness for C9 at the freshly constructed table. -/
theorem claim_C9_witness :
    ((newTable (K := Nat) (V := Nat) 0).arGet 0).entries.length
      ≤ BUCKET_MAX :=
  (claim_C9_capacity (fun n => n)).2.2 (newTable 0) (Reachable.init 0) 0
    (by decide)

/-- C10: `VirtualTable::DeleteEntry` reads the tuple at `rid` from the table
heap at call time and deletes the index entry built from that tuple; while
the tuple is still present this is the intended entry, and after
`DeleteTuple` on the same `rid` the heap read fails, so the key is instead
built from the freshly constructed `Tuple deleted_tuple(rid)`. -/
theorem claim_C10_delete_entry (T KT : Type) [DecidableEq KT]
    (keyOf : T → KT) (mkTuple : RID → T) (vt : VirtualTable T KT)
    (rid : RID) (tup : T) (h : vt.table_heap_.tuples rid = some tup) :
    (VirtualTable.DeleteEntry keyOf mkTuple vt rid).index_
        = vt.index_.DeleteEntry (keyOf tup)
    ∧ (VirtualTable.DeleteEntry keyOf mkTuple
          (vt.DeleteTuple rid).2 rid).index_
        = (vt.DeleteTuple rid).2.index_.DeleteEntry (keyOf (mkTuple rid)) := by
  constructor
  · simp [VirtualTable.DeleteEntry, TableHeap.GetTuple, h]
  · simp [VirtualTable.DeleteEntry, TableHeap.GetTuple,
      VirtualTable.DeleteTuple, TableHeap.DeleteTuple]

/-- Witness for C10 at a concrete two-entry table. -/
theorem claim_C10_witness :
    (VirtualTable.DeleteEntry (fun t => t) (fun _ => 0)
        (⟨⟨fun r => if r = 3 then some 42 else none⟩, ⟨[42, 7]⟩⟩ :
          VirtualTable Nat Nat) 3).index_
        = (⟨⟨fun r => if r = 3 then some 42 else none⟩, ⟨[42, 7]⟩⟩ :
            VirtualTable Nat Nat).index_.DeleteEntry 42
    ∧ (VirtualTable.DeleteEntry (fun t => t) (fun _ => 0)
          ((⟨⟨fun r => if r = 3 then some 42 else none⟩, ⟨[42, 7]⟩⟩ :
            VirtualTable Nat Nat).DeleteTuple 3).2 3).index_
        = ((⟨⟨fun r => if r = 3 then some 42 else none⟩, ⟨[42, 7]⟩⟩ :
            VirtualTable Nat Nat).DeleteTuple 3).2.index_.DeleteEntry 0 :=
  claim_C10_delete_entry Nat Nat (fun t => t) (fun _ => 0)
    ⟨⟨fun r => if r = 3 then some 42 else none⟩, ⟨[42, 7]⟩⟩ 3 42 rfl

end Claims

end Cmudb
